import Mathlib

/-!
Verification of the coin-flip simulator's statistics engine (`src/app.py`).

The engine consists of three pure functions: `flip_coin` (biased Bernoulli
sampling through `np.random.choice`), `calculate_statistics` (outcome counts
and percentages), and `perform_binomial_test` (two-sided exact binomial
p-value, fairness verdict, and a 95% confidence interval obtained from
`scipy.stats.binom.interval`).

All real arithmetic of the source is carried out here over `ℚ`: the source's
floating-point computations are exact-rational here, so every statement is
about the ideal real-number semantics of the code's formulas.
-/

/-- Binomial probability mass function, mirroring `scipy.stats.binom.pmf(k, n, p)`:
`C(n, k) * p^k * (1-p)^(n-k)`.  For `k > n` the binomial coefficient is `0`,
matching the distribution's support `0..n`. -/
def binom_pmf (k n : ℕ) (p : ℚ) : ℚ :=
  (n.choose k : ℚ) * p ^ k * (1 - p) ^ (n - k)

/-- Binomial cumulative distribution function, mirroring
`scipy.stats.binom.cdf(k, n, p) = ∑_{j ≤ k} pmf(j, n, p)`. -/
def binom_cdf (k n : ℕ) (p : ℚ) : ℚ :=
  match k with
  | 0 => binom_pmf 0 n p
  | k + 1 => binom_cdf k n p + binom_pmf (k + 1) n p

lemma binom_pmf_nonneg {p : ℚ} (hp0 : 0 ≤ p) (hp1 : p ≤ 1) (k n : ℕ) :
    0 ≤ binom_pmf k n p := by
  unfold binom_pmf
  have h1 : (0 : ℚ) ≤ (n.choose k : ℚ) := by positivity
  have h2 : (0 : ℚ) ≤ p ^ k := pow_nonneg hp0 k
  have h3 : (0 : ℚ) ≤ (1 - p) ^ (n - k) := pow_nonneg (by linarith) _
  exact mul_nonneg (mul_nonneg h1 h2) h3

lemma binom_pmf_eq_zero_of_lt {k n : ℕ} (h : n < k) (p : ℚ) :
    binom_pmf k n p = 0 := by
  unfold binom_pmf
  rw [Nat.choose_eq_zero_of_lt h]
  simp

lemma binom_cdf_eq_sum (k n : ℕ) (p : ℚ) :
    binom_cdf k n p = ∑ j in Finset.range (k + 1), binom_pmf j n p := by
  induction k with
  | zero => simp [binom_cdf]
  | succ k ih => rw [Finset.sum_range_succ, ← ih]; rfl

/-- The full mass of the binomial distribution is `1` (binomial theorem). -/
lemma binom_cdf_self (n : ℕ) (p : ℚ) : binom_cdf n n p = 1 := by
  rw [binom_cdf_eq_sum]
  have h := add_pow p (1 - p) n
  have h2 : p + (1 - p) = 1 := by ring
  rw [h2, one_pow] at h
  calc ∑ j in Finset.range (n + 1), binom_pmf j n p
      = ∑ j in Finset.range (n + 1), p ^ j * (1 - p) ^ (n - j) * (n.choose j : ℚ) :=
        Finset.sum_congr rfl (fun j _ => by unfold binom_pmf; ring)
    _ = 1 := h.symm

lemma binom_cdf_of_le {k n : ℕ} (h : n ≤ k) (p : ℚ) : binom_cdf k n p = 1 := by
  induction k, h using Nat.le_induction with
  | base => exact binom_cdf_self n p
  | succ k hk ih =>
      show binom_cdf k n p + binom_pmf (k + 1) n p = 1
      rw [ih, binom_pmf_eq_zero_of_lt (by omega)]
      ring

lemma binom_cdf_mono {p : ℚ} (hp0 : 0 ≤ p) (hp1 : p ≤ 1) {j k : ℕ} (h : j ≤ k)
    (n : ℕ) : binom_cdf j n p ≤ binom_cdf k n p := by
  induction k, h using Nat.le_induction with
  | base => exact le_refl _
  | succ k hk ih =>
      refine le_trans ih ?_
      show binom_cdf k n p ≤ binom_cdf k n p + binom_pmf (k + 1) n p
      have := binom_pmf_nonneg hp0 hp1 (k + 1) n
      linarith

lemma binom_cdf_nonneg {p : ℚ} (hp0 : 0 ≤ p) (hp1 : p ≤ 1) (k n : ℕ) :
    0 ≤ binom_cdf k n p := by
  induction k with
  | zero => exact binom_pmf_nonneg hp0 hp1 0 n
  | succ k ih =>
      have := binom_pmf_nonneg hp0 hp1 (k + 1) n
      show 0 ≤ binom_cdf k n p + binom_pmf (k + 1) n p
      linarith

lemma binom_cdf_le_one {p : ℚ} (hp0 : 0 ≤ p) (hp1 : p ≤ 1) (k n : ℕ) :
    binom_cdf k n p ≤ 1 := by
  rcases le_total k n with h | h
  · exact (binom_cdf_mono hp0 hp1 h n).trans (le_of_eq (binom_cdf_self n p))
  · exact le_of_eq (binom_cdf_of_le h p)

/-- Pascal recurrence for the binomial pmf: adding one more trial splits on the
outcome of the last trial. -/
lemma binom_pmf_succ_succ (k n : ℕ) (p : ℚ) :
    binom_pmf (k + 1) (n + 1) p = (1 - p) * binom_pmf (k + 1) n p + p * binom_pmf k n p := by
  unfold binom_pmf
  rcases lt_or_ge k n with hk | hk
  · have h1 : n + 1 - (k + 1) = n - k := by omega
    have h2 : n - k = (n - (k + 1)) + 1 := by omega
    rw [Nat.choose_succ_succ, h1, h2, pow_succ]
    push_cast
    ring
  · rcases eq_or_lt_of_le hk with heq | hlt
    · subst heq
      rw [Nat.choose_self, Nat.choose_succ_self, Nat.choose_self]
      simp
      ring
    · rw [Nat.choose_eq_zero_of_lt (by omega), Nat.choose_eq_zero_of_lt (by omega),
        Nat.choose_eq_zero_of_lt (by omega)]
      simp

lemma binom_pmf_zero_succ (n : ℕ) (p : ℚ) :
    binom_pmf 0 (n + 1) p = (1 - p) * binom_pmf 0 n p := by
  unfold binom_pmf
  simp [pow_succ]
  ring

/-- Pascal recurrence for the binomial CDF. -/
lemma binom_cdf_succ_succ (k n : ℕ) (p : ℚ) :
    binom_cdf (k + 1) (n + 1) p = (1 - p) * binom_cdf (k + 1) n p + p * binom_cdf k n p := by
  induction k with
  | zero =>
      show binom_cdf 0 (n + 1) p + binom_pmf 1 (n + 1) p = _
      show binom_pmf 0 (n + 1) p + binom_pmf 1 (n + 1) p = _
      rw [binom_pmf_zero_succ, binom_pmf_succ_succ 0 n p]
      show _ = (1 - p) * (binom_pmf 0 n p + binom_pmf 1 n p) + p * binom_pmf 0 n p
      ring
  | succ k ih =>
      show binom_cdf (k + 1) (n + 1) p + binom_pmf (k + 2) (n + 1) p = _
      rw [ih, binom_pmf_succ_succ (k + 1) n p]
      show _ = (1 - p) * (binom_cdf (k + 1) n p + binom_pmf (k + 2) n p)
        + p * (binom_cdf k n p + binom_pmf (k + 1) n p)
      ring

/-- One extra trial can only push mass upward: the CDF at a fixed point is
antitone in the number of trials (for `p ∈ [0,1]`). -/
lemma binom_cdf_succ_le {p : ℚ} (hp0 : 0 ≤ p) (hp1 : p ≤ 1) (k n : ℕ) :
    binom_cdf k (n + 1) p ≤ binom_cdf k n p := by
  cases k with
  | zero =>
      show binom_pmf 0 (n + 1) p ≤ binom_pmf 0 n p
      rw [binom_pmf_zero_succ]
      have h := binom_pmf_nonneg hp0 hp1 0 n
      nlinarith
  | succ k =>
      rw [binom_cdf_succ_succ]
      have hmono : binom_cdf k n p ≤ binom_cdf (k + 1) n p :=
        binom_cdf_mono hp0 hp1 (Nat.le_succ k) n
      nlinarith

lemma binom_cdf_anti {p : ℚ} (hp0 : 0 ≤ p) (hp1 : p ≤ 1) (k : ℕ) {n m : ℕ}
    (h : n ≤ m) : binom_cdf k m p ≤ binom_cdf k n p := by
  induction m, h using Nat.le_induction with
  | base => exact le_refl _
  | succ m hm ih => exact (binom_cdf_succ_le hp0 hp1 k m).trans ih

/-- Linear upward scan: the least index `j ≥ k` with `pred j = true` among the
next `fuel` indices, or `k + fuel` when none satisfies the predicate. -/
def scanLeast (pred : ℕ → Bool) (k fuel : ℕ) : ℕ :=
  match fuel with
  | 0 => k
  | fuel + 1 => if pred k then k else scanLeast pred (k + 1) fuel

lemma scanLeast_ge (pred : ℕ → Bool) (fuel : ℕ) :
    ∀ k, k ≤ scanLeast pred k fuel := by
  induction fuel with
  | zero => intro k; exact le_refl k
  | succ fuel ih =>
      intro k
      show k ≤ (if pred k then k else scanLeast pred (k + 1) fuel)
      split
      · exact le_refl k
      · exact (Nat.le_succ k).trans (ih (k + 1))

lemma scanLeast_le (pred : ℕ → Bool) (fuel : ℕ) :
    ∀ k, scanLeast pred k fuel ≤ k + fuel := by
  induction fuel with
  | zero => intro k; exact le_refl k
  | succ fuel ih =>
      intro k
      show (if pred k then k else scanLeast pred (k + 1) fuel) ≤ k + (fuel + 1)
      split
      · omega
      · have := ih (k + 1); omega

lemma scanLeast_false (pred : ℕ → Bool) (fuel : ℕ) :
    ∀ k j, k ≤ j → j < scanLeast pred k fuel → pred j = false := by
  induction fuel with
  | zero =>
      intro k j h1 h2
      have h0 : scanLeast pred k 0 = k := rfl
      omega
  | succ fuel ih =>
      intro k j h1 h2
      by_cases hk : pred k
      · have : scanLeast pred k (fuel + 1) = k := by
          show (if pred k then k else _) = k
          rw [if_pos hk]
        omega
      · have hs : scanLeast pred k (fuel + 1) = scanLeast pred (k + 1) fuel := by
          show (if pred k then k else scanLeast pred (k + 1) fuel) = _
          rw [if_neg hk]
        rw [hs] at h2
        rcases eq_or_lt_of_le h1 with heq | hlt
        · subst heq; exact Bool.eq_false_iff.mpr hk
        · exact ih (k + 1) j hlt h2

lemma scanLeast_true (pred : ℕ → Bool) (fuel : ℕ) :
    ∀ k, scanLeast pred k fuel < k + fuel → pred (scanLeast pred k fuel) = true := by
  induction fuel with
  | zero =>
      intro k h
      have h0 : scanLeast pred k 0 = k := rfl
      omega
  | succ fuel ih =>
      intro k h
      by_cases hk : pred k
      · have hs : scanLeast pred k (fuel + 1) = k := by
          show (if pred k then k else _) = k
          rw [if_pos hk]
        rw [hs]; exact hk
      · have hs : scanLeast pred k (fuel + 1) = scanLeast pred (k + 1) fuel := by
          show (if pred k then k else scanLeast pred (k + 1) fuel) = _
          rw [if_neg hk]
        rw [hs] at h ⊢
        exact ih (k + 1) (by omega)

lemma scanLeast_le_of_pred {pred : ℕ → Bool} {m : ℕ} (hm : pred m = true)
    (fuel : ℕ) : scanLeast pred 0 fuel ≤ m := by
  by_contra hcon
  push_neg at hcon
  have := scanLeast_false pred fuel 0 m (Nat.zero_le m) hcon
  rw [hm] at this
  exact Bool.noConfusion this

lemma scanLeast_lb {pred : ℕ → Bool} {m fuel : ℕ}
    (h : ∀ j, j < m → pred j = false) (hm : m ≤ fuel) :
    m ≤ scanLeast pred 0 fuel := by
  by_contra hcon
  push_neg at hcon
  have hle := scanLeast_le pred fuel 0
  have := scanLeast_true pred fuel 0 (by omega)
  rw [h _ hcon] at this
  exact Bool.noConfusion this

/-- Percent-point function (quantile) of the binomial distribution, mirroring
`scipy.stats.binom.ppf(q, n, p)` for `0 < q ≤ 1`: the smallest integer `k` in
the support `0..n` with `cdf(k, n, p) ≥ q`.  Since `cdf(n, n, p) = 1`, the
scan's default `n` is only ever returned when `k = n` is that smallest index. -/
def binom_ppf (q : ℚ) (n : ℕ) (p : ℚ) : ℕ :=
  scanLeast (fun k => decide (q ≤ binom_cdf k n p)) 0 n

lemma binom_ppf_le (q : ℚ) (n : ℕ) (p : ℚ) : binom_ppf q n p ≤ n := by
  have := scanLeast_le (fun k => decide (q ≤ binom_cdf k n p)) n 0
  simpa [binom_ppf] using this

lemma binom_cdf_lt_of_lt_ppf {q : ℚ} {n : ℕ} {p : ℚ} {j : ℕ}
    (h : j < binom_ppf q n p) : binom_cdf j n p < q := by
  have := scanLeast_false (fun k => decide (q ≤ binom_cdf k n p)) n 0 j
    (Nat.zero_le j) h
  simpa using this

lemma le_binom_cdf_ppf {q : ℚ} (hq : q ≤ 1) (n : ℕ) (p : ℚ) :
    q ≤ binom_cdf (binom_ppf q n p) n p := by
  rcases lt_or_eq_of_le (binom_ppf_le q n p) with h | h
  · have hrfl : binom_ppf q n p
        = scanLeast (fun k => decide (q ≤ binom_cdf k n p)) 0 n := rfl
    have := scanLeast_true (fun k => decide (q ≤ binom_cdf k n p)) n 0 (by omega)
    simpa [binom_ppf] using this
  · rw [h, binom_cdf_self]; exact hq

lemma binom_ppf_le_of_cdf {q : ℚ} {n m : ℕ} {p : ℚ}
    (h : q ≤ binom_cdf m n p) : binom_ppf q n p ≤ m :=
  scanLeast_le_of_pred (by simpa using h) n

/-- The quantile is monotone in the number of trials (for `p ∈ [0,1]`). -/
lemma binom_ppf_mono_n {p : ℚ} (hp0 : 0 ≤ p) (hp1 : p ≤ 1) (q : ℚ) {n m : ℕ}
    (h : n ≤ m) : binom_ppf q n p ≤ binom_ppf q m p := by
  apply scanLeast_lb
  · intro j hj
    have h1 : binom_cdf j n p < q := binom_cdf_lt_of_lt_ppf hj
    have h2 : binom_cdf j m p ≤ binom_cdf j n p := binom_cdf_anti hp0 hp1 j h
    simp only [decide_eq_false_iff_not, not_le]
    linarith
  · exact (binom_ppf_le q n p).trans h

/-- `scipy.stats.binom.interval(confidence, n, p)`: the central equal-tailed
interval `(ppf((1-confidence)/2, n, p), ppf((1+confidence)/2, n, p))`. -/
def binom_interval (confidence : ℚ) (n : ℕ) (p : ℚ) : ℕ × ℕ :=
  (binom_ppf ((1 - confidence) / 2) n p, binom_ppf ((1 + confidence) / 2) n p)

/-- Probability mass the binomial distribution places on the integer interval
`[lo, hi]` inclusive. -/
def intervalMass (n : ℕ) (p : ℚ) (lo hi : ℕ) : ℚ :=
  ∑ j in Finset.Icc lo hi, binom_pmf j n p

lemma intervalMass_eq {n : ℕ} {p : ℚ} {lo hi : ℕ} (h : lo ≤ hi) :
    intervalMass n p lo hi
      = binom_cdf hi n p - ∑ j in Finset.range lo, binom_pmf j n p := by
  unfold intervalMass
  rw [← Nat.Ico_succ_right, Finset.sum_Ico_eq_sub _ (by omega), ← binom_cdf_eq_sum]

/-- The two quantiles returned by `binom_interval` are ordered. -/
lemma binom_interval_fst_le_snd {c : ℚ} (hc0 : 0 ≤ c) (hc1 : c ≤ 1)
    (n : ℕ) (p : ℚ) : (binom_interval c n p).1 ≤ (binom_interval c n p).2 := by
  apply binom_ppf_le_of_cdf
  calc (1 - c) / 2 ≤ (1 + c) / 2 := by linarith
    _ ≤ binom_cdf (binom_ppf ((1 + c) / 2) n p) n p :=
        le_binom_cdf_ppf (by linarith) n p

/-- Coverage of the equal-tailed interval: at most `(1-c)/2` mass lies strictly
below the lower quantile and at most `(1-c)/2` strictly above the upper one,
so the interval holds at least `c` of the total mass. -/
lemma binom_interval_coverage {c : ℚ} (hc0 : 0 ≤ c) (hc1 : c ≤ 1)
    (n : ℕ) (p : ℚ) :
    c ≤ intervalMass n p (binom_interval c n p).1 (binom_interval c n p).2 := by
  have hle := binom_interval_fst_le_snd hc0 hc1 n p
  rw [intervalMass_eq hle]
  have hhi : (1 + c) / 2 ≤ binom_cdf (binom_interval c n p).2 n p :=
    le_binom_cdf_ppf (by linarith) n p
  rcases Nat.eq_zero_or_pos (binom_interval c n p).1 with h0 | h0
  · rw [h0]
    simp only [Finset.range_zero, Finset.sum_empty]
    linarith
  · obtain ⟨l, hl⟩ : ∃ l, (binom_interval c n p).1 = l + 1 :=
      ⟨(binom_interval c n p).1 - 1, by omega⟩
    rw [hl, ← binom_cdf_eq_sum]
    have hrfl : (binom_interval c n p).1 = binom_ppf ((1 - c) / 2) n p := rfl
    have hlo : binom_cdf l n p < (1 - c) / 2 :=
      binom_cdf_lt_of_lt_ppf (by omega)
    linarith

lemma binom_pmf_half {k n : ℕ} (hk : k ≤ n) :
    binom_pmf k n (1/2) = (n.choose k : ℚ) * (1/2) ^ n := by
  unfold binom_pmf
  have h1 : (1 : ℚ) - 1/2 = 1/2 := by norm_num
  rw [h1, mul_assoc, ← pow_add]
  congr 2
  omega

lemma binom_pmf_half_symm {k n : ℕ} (hk : k ≤ n) :
    binom_pmf k n (1/2) = binom_pmf (n - k) n (1/2) := by
  rw [binom_pmf_half hk, binom_pmf_half (Nat.sub_le n k), Nat.choose_symm hk]

/-- Symmetry of the fair-coin binomial: mass up to `k` plus mass up to the
mirrored index `n-k-1` is the whole distribution. -/
lemma binom_cdf_half_compl {k n : ℕ} (h : k < n) :
    binom_cdf k n (1/2) + binom_cdf (n - k - 1) n (1/2) = 1 := by
  rw [binom_cdf_eq_sum, binom_cdf_eq_sum]
  have hnk : n - k - 1 + 1 = n - k := by omega
  rw [hnk]
  have hreflect : ∑ j in Finset.range (n - k), binom_pmf j n (1/2)
      = ∑ j in Finset.range (n - k), binom_pmf (n - k - 1 - j) n (1/2) :=
    (Finset.sum_range_reflect (fun j => binom_pmf j n (1/2)) (n - k)).symm
  rw [hreflect]
  have hcongr : ∑ j in Finset.range (n - k), binom_pmf (n - k - 1 - j) n (1/2)
      = ∑ j in Finset.range (n - k), binom_pmf (k + 1 + j) n (1/2) := by
    refine Finset.sum_congr rfl (fun j hj => ?_)
    rw [Finset.mem_range] at hj
    rw [binom_pmf_half_symm (by omega : n - k - 1 - j ≤ n)]
    congr 1
    omega
  rw [hcongr]
  have hico : ∑ j in Finset.range (n - k), binom_pmf (k + 1 + j) n (1/2)
      = ∑ i in Finset.Ico (k + 1) (n + 1), binom_pmf i n (1/2) := by
    rw [Finset.sum_Ico_eq_sum_range]
    have h2 : n + 1 - (k + 1) = n - k := by omega
    rw [h2]
  rw [hico, Finset.range_eq_Ico,
    Finset.sum_Ico_consecutive _ (by omega : 0 ≤ k + 1) (by omega : k + 1 ≤ n + 1),
    ← Finset.range_eq_Ico, ← binom_cdf_eq_sum]
  exact binom_cdf_self n (1/2)

/-- For the fair coin, at least half the mass lies at or below `⌊n/2⌋`. -/
lemma binom_cdf_half_ge {n : ℕ} (hn : 1 ≤ n) :
    (1 : ℚ) / 2 ≤ binom_cdf (n / 2) n (1/2) := by
  have hk : n / 2 < n := by omega
  have hcompl := binom_cdf_half_compl hk
  have hmono : binom_cdf (n - n / 2 - 1) n (1/2) ≤ binom_cdf (n / 2) n (1/2) :=
    binom_cdf_mono (by norm_num) (by norm_num) (by omega) n
  linarith

/-- For the fair coin, strictly below the mean at most half the mass has
accumulated. -/
lemma binom_cdf_half_le {k n : ℕ} (h2k : 2 * k < n) :
    binom_cdf k n (1/2) ≤ 1 / 2 := by
  have hn : 1 ≤ n := by omega
  have hk : n / 2 < n := by omega
  have hcompl := binom_cdf_half_compl hk
  have hge := binom_cdf_half_ge hn
  have hmono : binom_cdf k n (1/2) ≤ binom_cdf (n - n / 2 - 1) n (1/2) :=
    binom_cdf_mono (by norm_num) (by norm_num) (by omega) n
  linarith

/-- For the fair coin the lower quantile of the 95% interval sits at or below
the mean `n·(1/2)`. -/
lemma binom_interval_lo_le_half (n : ℕ) :
    (((binom_interval 0.95 n (1/2)).1 : ℕ) : ℚ) ≤ (n : ℚ) * (1/2) := by
  rcases Nat.eq_zero_or_pos n with h0 | h1
  · subst h0
    have hz : (binom_interval 0.95 0 (1/2)).1 = 0 :=
      Nat.le_zero.mp (binom_ppf_le ((1 - 0.95) / 2) 0 (1/2))
    rw [hz]
    norm_num
  · have hhalf := binom_cdf_half_ge h1
    have hcdf : ((1 : ℚ) - 0.95) / 2 ≤ binom_cdf (n / 2) n (1/2) := by
      norm_num
      linarith
    have hlo : (binom_interval 0.95 n (1/2)).1 ≤ n / 2 := binom_ppf_le_of_cdf hcdf
    have hdiv : 2 * (n / 2) ≤ n := by omega
    have hc1 : ((binom_interval 0.95 n (1/2)).1 : ℚ) ≤ ((n / 2 : ℕ) : ℚ) := by
      exact_mod_cast hlo
    have hc2 : ((2 * (n / 2) : ℕ) : ℚ) ≤ (n : ℚ) := by exact_mod_cast hdiv
    push_cast at hc2
    linarith

/-- For the fair coin the upper quantile of the 95% interval sits at or above
the mean `n·(1/2)`. -/
lemma binom_interval_hi_ge_half (n : ℕ) :
    (n : ℚ) * (1/2) ≤ (((binom_interval 0.95 n (1/2)).2 : ℕ) : ℚ) := by
  have hq : ((1 : ℚ) + 0.95) / 2
      ≤ binom_cdf ((binom_interval 0.95 n (1/2)).2) n (1/2) :=
    le_binom_cdf_ppf (by norm_num) n (1/2)
  by_contra hcon
  push_neg at hcon
  have h2 : 2 * (binom_interval 0.95 n (1/2)).2 < n := by
    have h4 : ((2 * (binom_interval 0.95 n (1/2)).2 : ℕ) : ℚ) < (n : ℚ) := by
      push_cast
      linarith
    exact_mod_cast h4
  have hle := binom_cdf_half_le h2
  norm_num at hq
  linarith

/-- Result record of `calculate_statistics` in `src/app.py`. -/
structure Statistics where
  total : ℕ
  caras : ℕ
  cruces : ℕ
  porcentaje_caras : ℚ
  porcentaje_cruces : ℚ
deriving Repr, DecidableEq

/-- `calculate_statistics(results)` from `src/app.py`: counts the elements
equal to `'Cara'` and to `'Cruz'` and computes their percentages of the list
length, with both percentages defined as `0` for an empty list. -/
def calculate_statistics (results : List String) : Statistics :=
  { total := results.length
    caras := results.count "Cara"
    cruces := results.count "Cruz"
    porcentaje_caras :=
      if 0 < results.length then (results.count "Cara" : ℚ) / results.length * 100
      else 0
    porcentaje_cruces :=
      if 0 < results.length then (results.count "Cruz" : ℚ) / results.length * 100
      else 0 }

lemma count_cara_cruz_add (l : List String) :
    l.count "Cara" + l.count "Cruz"
      + l.countP (fun s => !(s == "Cara") && !(s == "Cruz")) = l.length := by
  induction l with
  | nil => rfl
  | cons a l ih =>
      rw [List.count_cons, List.count_cons, List.countP_cons, List.length_cons]
      by_cases h1 : a = "Cara"
      · subst h1
        simp only [beq_self_eq_true, if_true, beq_iff_eq, Bool.not_true,
          Bool.false_and, if_false]
        rw [if_neg (show ¬ (("Cara" : String) = "Cruz") by decide),
          if_neg (show ¬ (false = true) by decide)]
        omega
      · by_cases h2 : a = "Cruz"
        · subst h2
          simp only [beq_self_eq_true, if_true, beq_iff_eq, Bool.not_true,
            Bool.and_false, if_false]
          rw [if_neg (show ¬ (("Cruz" : String) = "Cara") by decide),
            if_neg (show ¬ (false = true) by decide)]
          omega
        · have hne1 : ¬ (a == "Cara") = true := by simp [h1]
          have hne2 : ¬ (a == "Cruz") = true := by simp [h2]
          rw [if_neg hne1, if_neg hne2]
          have ht : (!(a == "Cara") && !(a == "Cruz")) = true := by
            simp [h1, h2]
          rw [if_pos ht]
          omega

lemma count_cara_cruz_of_valid {l : List String}
    (h : ∀ x ∈ l, x = "Cara" ∨ x = "Cruz") :
    l.count "Cara" + l.count "Cruz" = l.length := by
  have hsplit := count_cara_cruz_add l
  have hz : l.countP (fun s => !(s == "Cara") && !(s == "Cruz")) = 0 := by
    rw [List.countP_eq_zero]
    intro a ha
    rcases h a ha with h1 | h1 <;> subst h1 <;> simp
  omega

/-- Failure conditions of `np.random.choice` as invoked by `flip_coin`:
a negative `size` raises `ValueError: negative dimensions are not allowed`,
and a weight vector `[probability, 1 - probability]` containing a negative
entry (i.e. `probability` outside `[0, 1]`) raises
`ValueError: probabilities are not non-negative`.  These are the spec's
InvalidParameter conditions. -/
inductive FlipError where
  | negativeDimensions : FlipError
  | probabilitiesNotNonNegative : FlipError
deriving Repr, DecidableEq

/-- `flip_coin(n_flips, probability)` from `src/app.py`.

The source draws `n_flips` samples from `['Cara', 'Cruz']` with weights
`[probability, 1 - probability]` through `np.random.choice` and performs no
validation of its own, so all failure behaviour is `np.random.choice`'s
(modelled per its documented semantics).  The process-wide random source is
made explicit (spec §9 design note) as a stream `rand : ℕ → ℚ` of uniform
draws, draw `i` yielding `'Cara'` exactly when `rand i < probability`
(inverse-transform sampling of the two-point categorical distribution).
Note `np.random.choice` with `size = 0` succeeds and returns an empty array. -/
def flip_coin (n_flips : ℤ) (probability : ℚ) (rand : ℕ → ℚ) :
    Except FlipError (List String) :=
  if probability < 0 ∨ 1 - probability < 0 then
    Except.error FlipError.probabilitiesNotNonNegative
  else if n_flips < 0 then
    Except.error FlipError.negativeDimensions
  else
    Except.ok ((List.range n_flips.toNat).map
      (fun i => if rand i < probability then "Cara" else "Cruz"))

/-- Failure condition of `perform_binomial_test` at `n_total = 0`:
`scipy.stats.binomtest` validates `n ≥ 1` and raises `ValueError` when
`n = 0`; the `except AttributeError` clause in the source does not catch it,
so the call fails — the spec's UndefinedTest condition. -/
inductive TestError where
  | undefinedTest : TestError
deriving Repr, DecidableEq

/-- Result record of `perform_binomial_test` in `src/app.py`. -/
structure TestResult where
  p_value : ℚ
  is_fair : Bool
  confidence_interval : ℕ × ℕ
deriving Repr, DecidableEq

/-- The two-sided p-value of `scipy.stats.binomtest(k, n, p)`, the call the
source executes on SciPy ≥ 1.7 (line 200; only `AttributeError` — i.e. the
name being absent on old SciPy — selects the legacy fallback).  Its
documented two-sided method is minimum-likelihood: the probability mass of
all outcomes whose probability does not exceed that of the observed outcome
is summed.  The implementation special-cases `k == p*n` to `1.0` (in exact
arithmetic that is the mode, so the sum is the full mass anyway) and ends
with `pval = min(1.0, pval)`, both mirrored here. -/
def binomtest_pvalue (k n : ℕ) (p : ℚ) : ℚ :=
  if (k : ℚ) = n * p then 1
  else
    min 1 (∑ j in (Finset.range (n + 1)).filter
      (fun j => binom_pmf j n p ≤ binom_pmf k n p), binom_pmf j n p)

/-- `perform_binomial_test(n_caras, n_total, p)` from `src/app.py`.

The source tries `stats.binomtest(n_caras, n_total, p, 'two-sided')` and
falls back to a manual computation only when that name is missing (SciPy
< 1.7); this embedding models the primary, executed path.  For `n_total = 0`
the `stats.binomtest` call raises (its `n` must be a positive integer) and
the error propagates past the `except AttributeError` clause.  For
`n_total ≥ 1` the p-value is `binomtest_pvalue`, the minimum-likelihood
two-sided p-value binomtest returns.  The fairness verdict is
`p_value > 0.05` and the confidence interval is
`scipy.stats.binom.interval(0.95, n_total, p)`. -/
def perform_binomial_test (n_caras n_total : ℕ) (p : ℚ) :
    Except TestError TestResult :=
  if n_total = 0 then Except.error TestError.undefinedTest
  else
    Except.ok
      { p_value := binomtest_pvalue n_caras n_total p
        is_fair := decide (0.05 < binomtest_pvalue n_caras n_total p)
        confidence_interval := binom_interval 0.95 n_total p }

/-- Written from the spec's own words, for comparison with the source:
"Exact algorithm: if headsCount ≤ totalCount·expectedProbability, p-value =
min(1, 2 × CDF(headsCount; totalCount, expectedProbability)); otherwise
p-value = min(1, 2 × (1 − CDF(headsCount − 1; totalCount,
expectedProbability))), where CDF is the cumulative distribution function of
the binomial distribution." -/
def spec_pvalue (headsCount totalCount : ℕ) (expectedProbability : ℚ) : ℚ :=
  if (headsCount : ℚ) ≤ totalCount * expectedProbability then
    min 1 (2 * binom_cdf headsCount totalCount expectedProbability)
  else
    min 1 (2 * (1 - binom_cdf (headsCount - 1) totalCount expectedProbability))

lemma choose_le_choose_succ {n i : ℕ} (h : 2 * i + 1 ≤ n) :
    n.choose i ≤ n.choose (i + 1) := by
  have hrec := Nat.choose_succ_right_eq n i
  have h1 : n.choose i * (i + 1) ≤ n.choose i * (n - i) :=
    Nat.mul_le_mul_left _ (by omega)
  have h2 : n.choose i * (i + 1) ≤ n.choose (i + 1) * (i + 1) := by
    rw [hrec]
    exact h1
  exact Nat.le_of_mul_le_mul_right h2 (by omega)

lemma choose_lt_choose_succ {n i : ℕ} (h : 2 * i + 2 ≤ n) :
    n.choose i < n.choose (i + 1) := by
  have hrec := Nat.choose_succ_right_eq n i
  have hpos : 0 < n.choose i := Nat.choose_pos (by omega)
  have h1 : n.choose i * (i + 1) < n.choose i * (n - i) :=
    mul_lt_mul_of_pos_left (by omega) hpos
  have h2 : n.choose i * (i + 1) < n.choose (i + 1) * (i + 1) := by
    rw [hrec]
    exact h1
  exact Nat.lt_of_mul_lt_mul_right h2

/-- The binomial coefficients grow (weakly) step by step up to the middle. -/
lemma choose_add_le {n j : ℕ} :
    ∀ d, 2 * (j + d) ≤ n → n.choose j ≤ n.choose (j + d) := by
  intro d
  induction d with
  | zero => intro _; exact le_refl _
  | succ d ih =>
      intro h
      exact le_trans (ih (by omega)) (choose_le_choose_succ (by omega))

/-- The binomial coefficients grow strictly when moving up to an index at or
below the middle. -/
lemma choose_lt_half {n k j : ℕ} (hkj : k < j) (hj : 2 * j ≤ n) :
    n.choose k < n.choose j := by
  have h1 : n.choose k < n.choose (k + 1) := choose_lt_choose_succ (by omega)
  have h2 : n.choose (k + 1) ≤ n.choose j := by
    obtain ⟨d, rfl⟩ : ∃ d, j = (k + 1) + d := ⟨j - (k + 1), by omega⟩
    exact choose_add_le d (by omega)
  omega

/-- Unimodality: strictly between `k` and its mirror `n-k` every binomial
coefficient strictly exceeds `C(n,k)`. -/
lemma choose_lt_between {n k j : ℕ} (h1 : k < j) (h2 : j < n - k) :
    n.choose k < n.choose j := by
  rcases le_or_lt (2 * j) n with hj | hj
  · exact choose_lt_half h1 hj
  · have hjn : j ≤ n := by omega
    rw [← Nat.choose_symm hjn]
    exact choose_lt_half (by omega) (by omega)

/-- Outside the open strip `(k, n-k)` every binomial coefficient is at most
`C(n,k)`. -/
lemma choose_le_outside {n k j : ℕ} (h2k : 2 * k < n) (hj : j ≤ n)
    (h : j ≤ k ∨ n - k ≤ j) : n.choose j ≤ n.choose k := by
  rcases h with h | h
  · obtain ⟨d, rfl⟩ : ∃ d, k = j + d := ⟨k - j, by omega⟩
    exact choose_add_le d (by omega)
  · rw [← Nat.choose_symm hj]
    obtain ⟨d, hd⟩ : ∃ d, k = (n - j) + d := ⟨k - (n - j), by omega⟩
    rw [hd]
    exact choose_add_le d (by omega)

/-- For the fair coin, the outcomes no likelier than `k` (with `k` below the
mean) are exactly those at most `k` or at least `n-k`. -/
lemma pmf_le_iff_half {n k : ℕ} (h2k : 2 * k < n) {j : ℕ} (hj : j ≤ n) :
    (binom_pmf j n (1/2) ≤ binom_pmf k n (1/2)) ↔ (j ≤ k ∨ n - k ≤ j) := by
  rw [binom_pmf_half hj, binom_pmf_half (by omega : k ≤ n)]
  have hpow : (0 : ℚ) < (1/2) ^ n := by positivity
  rw [mul_le_mul_right hpow, Nat.cast_le]
  constructor
  · intro hle
    by_contra hcon
    push_neg at hcon
    have := choose_lt_between (n := n) (k := k) (j := j) (by omega) (by omega)
    omega
  · exact choose_le_outside h2k hj

/-- For the fair coin with `2k < n` the minimum-likelihood two-sided mass is
exactly twice the lower tail. -/
lemma sum_filter_pmf_half {n k : ℕ} (h2k : 2 * k < n) :
    ∑ j in (Finset.range (n + 1)).filter
        (fun j => binom_pmf j n (1/2) ≤ binom_pmf k n (1/2)), binom_pmf j n (1/2)
      = 2 * binom_cdf k n (1/2) := by
  have hfe : (Finset.range (n + 1)).filter
        (fun j => binom_pmf j n (1/2) ≤ binom_pmf k n (1/2))
      = Finset.range (k + 1) ∪ Finset.Icc (n - k) n := by
    ext j
    simp only [Finset.mem_filter, Finset.mem_range, Finset.mem_union,
      Finset.mem_Icc]
    constructor
    · rintro ⟨hj, hle⟩
      have := (pmf_le_iff_half h2k (by omega : j ≤ n)).mp hle
      omega
    · intro hj
      have hjn : j ≤ n := by omega
      exact ⟨by omega, (pmf_le_iff_half h2k hjn).mpr (by omega)⟩
  rw [hfe, Finset.sum_union (by
    rw [Finset.disjoint_left]
    intro a ha hb
    rw [Finset.mem_range] at ha
    rw [Finset.mem_Icc] at hb
    omega)]
  rw [← binom_cdf_eq_sum]
  have hIcc : ∑ j in Finset.Icc (n - k) n, binom_pmf j n (1/2)
      = binom_cdf n n (1/2) - binom_cdf (n - k - 1) n (1/2) := by
    have hnk1 : (n - k - 1) + 1 = n - k := by omega
    rw [← Nat.Ico_succ_right, Finset.sum_Ico_eq_sub _ (by omega),
      ← binom_cdf_eq_sum]
    nth_rewrite 1 [← hnk1]
    rw [← binom_cdf_eq_sum]
  rw [hIcc, binom_cdf_self]
  have hcompl := binom_cdf_half_compl (show k < n by omega)
  linarith

lemma cast_eq_half_iff {a n : ℕ} : ((a : ℚ) = n * (1/2)) ↔ 2 * a = n := by
  constructor
  · intro h
    have h2 : ((2 * a : ℕ) : ℚ) = (n : ℚ) := by push_cast; linarith
    exact_mod_cast h2
  · intro h
    have h2 : ((2 * a : ℕ) : ℚ) = (n : ℚ) := by exact_mod_cast congrArg Nat.cast h
    push_cast at h2
    linarith

/-- The fair-coin binomtest p-value is symmetric under `k ↔ n-k` (the
likelihood threshold is the same on both sides). -/
lemma binomtest_pvalue_symm {k n : ℕ} (hk : k ≤ n) :
    binomtest_pvalue k n (1/2) = binomtest_pvalue (n - k) n (1/2) := by
  unfold binomtest_pvalue
  by_cases hsp : 2 * k = n
  · rw [if_pos (cast_eq_half_iff.mpr hsp),
      if_pos (cast_eq_half_iff.mpr (by omega))]
  · rw [if_neg (fun hc => hsp (cast_eq_half_iff.mp hc)),
      if_neg (fun hc => (show ¬ 2 * (n - k) = n by omega)
        (cast_eq_half_iff.mp hc)),
      binom_pmf_half_symm hk]

/-- For the fair coin the executed binomtest minimum-likelihood p-value
coincides with the spec's doubled-tail formula. -/
lemma binomtest_pvalue_half_eq_spec {k n : ℕ} (hk : k ≤ n) (hn : 1 ≤ n) :
    binomtest_pvalue k n (1/2) = spec_pvalue k n (1/2) := by
  have hcondle : ((k : ℚ) ≤ (n : ℚ) * (1/2)) ↔ 2 * k ≤ n := by
    constructor
    · intro h
      have h2 : ((2 * k : ℕ) : ℚ) ≤ (n : ℚ) := by push_cast; linarith
      exact_mod_cast h2
    · intro h
      have h2 : ((2 * k : ℕ) : ℚ) ≤ (n : ℚ) := by exact_mod_cast h
      push_cast at h2
      linarith
  rcases lt_trichotomy (2 * k) n with hlt | heq | hgt
  · unfold binomtest_pvalue spec_pvalue
    rw [if_neg (fun hc => (show ¬ 2 * k = n by omega)
        (cast_eq_half_iff.mp hc)),
      if_pos (hcondle.mpr (by omega)), sum_filter_pmf_half hlt]
  · unfold binomtest_pvalue spec_pvalue
    rw [if_pos (cast_eq_half_iff.mpr heq), if_pos (hcondle.mpr (by omega))]
    have hge := binom_cdf_half_ge hn
    have hkn2 : k = n / 2 := by omega
    rw [hkn2]
    exact (min_eq_left (by linarith)).symm
  · have hlt2 : 2 * (n - k) < n := by omega
    rw [binomtest_pvalue_symm hk]
    unfold binomtest_pvalue spec_pvalue
    rw [if_neg (fun hc => (show ¬ 2 * (n - k) = n by omega)
        (cast_eq_half_iff.mp hc)),
      if_neg (fun hc => (show ¬ 2 * k ≤ n by omega) (hcondle.mp hc)),
      sum_filter_pmf_half hlt2]
    have hcompl := binom_cdf_half_compl (show k - 1 < n by omega)
    have hco : n - (k - 1) - 1 = n - k := by omega
    rw [hco] at hcompl
    have hrw : binom_cdf (n - k) n (1/2) = 1 - binom_cdf (k - 1) n (1/2) := by
      linarith
    rw [hrw]

/-- C1 counterexample: at headsCount = 6, totalCount = 10,
expectedProbability = 4/5 the executed binomtest path returns the
minimum-likelihood p-value 1180409/9765625 ≈ 0.1209, while the claim's
doubled-tail formula gives 2360818/9765625 ≈ 0.2417 — the claim fails for
expectedProbability ≠ 1/2. -/
theorem claim_C1_counterexample :
    (∃ r, perform_binomial_test 6 10 (4/5) = Except.ok r
        ∧ r.p_value = (1180409 : ℚ)/9765625)
    ∧ spec_pvalue 6 10 (4/5) = (2360818 : ℚ)/9765625
    ∧ (1180409 : ℚ)/9765625 ≠ (2360818 : ℚ)/9765625 := by
  have hc6 : binom_cdf 6 10 (4/5) = 1180409/9765625 := by
    norm_num [binom_cdf, binom_pmf, Nat.choose]
  refine ⟨⟨_, rfl, ?_⟩, ?_, by norm_num⟩
  · show binomtest_pvalue 6 10 (4/5) = (1180409 : ℚ)/9765625
    have hs : (∑ j in Finset.range (10 + 1),
        if binom_pmf j 10 (4/5) ≤ binom_pmf 6 10 (4/5) then binom_pmf j 10 (4/5)
        else 0) = (1180409 : ℚ)/9765625 := by
      norm_num [binom_pmf, Nat.choose, Finset.sum_range_succ]
    unfold binomtest_pvalue
    rw [if_neg (by norm_num), Finset.sum_filter, hs,
      min_eq_right (by norm_num)]
  · unfold spec_pvalue
    rw [if_pos (by norm_num), hc6, min_eq_right (by norm_num)]
    norm_num

/-- C1 (amended): for every totalCount ≥ 1 and headsCount ≤ totalCount, at
expectedProbability = 1/2 — the only probability the application ever passes
to the test — the p-value returned by the binomial test equals the spec's
stated exact formula; for other probabilities the executed binomtest path
returns the minimum-likelihood two-sided p-value instead. -/
theorem claim_C1_amended (headsCount totalCount : ℕ)
    (hn : 1 ≤ totalCount) (hh : headsCount ≤ totalCount) :
    ∃ r, perform_binomial_test headsCount totalCount (1/2) = Except.ok r
      ∧ r.p_value = spec_pvalue headsCount totalCount (1/2) := by
  have h0 : ¬ (totalCount = 0) := by omega
  refine ⟨{ p_value := binomtest_pvalue headsCount totalCount (1/2)
          , is_fair :=
              decide ((0.05 : ℚ) < binomtest_pvalue headsCount totalCount (1/2))
          , confidence_interval := binom_interval 0.95 totalCount (1/2) },
    ?_, binomtest_pvalue_half_eq_spec hh hn⟩
  unfold perform_binomial_test
  rw [if_neg h0]

/-- Witness for the amended C1 at the spec's example input heads = 0,
total = 10 (whose p-value is 2·(1/2)^10 = 1/512). -/
theorem claim_C1_amended_witness :
    ((1 : ℕ) ≤ 10 ∧ (0 : ℕ) ≤ 10)
    ∧ ∃ r, perform_binomial_test 0 10 (1/2) = Except.ok r
        ∧ r.p_value = spec_pvalue 0 10 (1/2) :=
  ⟨⟨by norm_num, by norm_num⟩,
    claim_C1_amended 0 10 (by norm_num) (by norm_num)⟩

/-- C3: for every valid input the fairness verdict is true exactly when the
returned p-value exceeds 0.05, and the returned p-value lies in [0, 1]. -/
theorem claim_C3 (headsCount totalCount : ℕ) (p : ℚ)
    (hn : 1 ≤ totalCount) (hh : headsCount ≤ totalCount)
    (hp0 : 0 ≤ p) (hp1 : p ≤ 1) :
    ∃ r, perform_binomial_test headsCount totalCount p = Except.ok r
      ∧ (r.is_fair = true ↔ (0.05 : ℚ) < r.p_value)
      ∧ 0 ≤ r.p_value ∧ r.p_value ≤ 1 := by
  have h0 : ¬ (totalCount = 0) := by omega
  refine ⟨{ p_value := binomtest_pvalue headsCount totalCount p
          , is_fair :=
              decide ((0.05 : ℚ) < binomtest_pvalue headsCount totalCount p)
          , confidence_interval := binom_interval 0.95 totalCount p },
    ?_, ?_, ?_, ?_⟩
  · unfold perform_binomial_test
    rw [if_neg h0]
  · exact decide_eq_true_iff
  · show (0 : ℚ) ≤ binomtest_pvalue headsCount totalCount p
    unfold binomtest_pvalue
    split_ifs
    · norm_num
    · refine le_min (by norm_num) (Finset.sum_nonneg ?_)
      intro j _
      exact binom_pmf_nonneg hp0 hp1 j totalCount
  · show binomtest_pvalue headsCount totalCount p ≤ 1
    unfold binomtest_pvalue
    split_ifs
    · norm_num
    · exact min_le_left 1 _

/-- Witness for C3 at heads = 5, total = 10, p = 1/2 (the exactly-expected
split of the spec's example, p-value 1, verdict fair). -/
theorem claim_C3_witness :
    ((1 : ℕ) ≤ 10 ∧ (5 : ℕ) ≤ 10 ∧ (0 : ℚ) ≤ 1/2 ∧ (1/2 : ℚ) ≤ 1)
    ∧ ∃ r, perform_binomial_test 5 10 (1/2) = Except.ok r
        ∧ (r.is_fair = true ↔ (0.05 : ℚ) < r.p_value)
        ∧ 0 ≤ r.p_value ∧ r.p_value ≤ 1 :=
  ⟨⟨by norm_num, by norm_num, by norm_num, by norm_num⟩,
    claim_C3 5 10 (1/2) (by norm_num) (by norm_num) (by norm_num) (by norm_num)⟩

/-- C7: with totalCount = 0 the binomial test fails with the UndefinedTest
condition (the `stats.binomtest` call raises and nothing catches it) rather
than returning a result. -/
theorem claim_C7 (headsCount : ℕ) (p : ℚ) :
    perform_binomial_test headsCount 0 p = Except.error TestError.undefinedTest :=
  rfl

/-- C4: for every sequence of trial outcomes (elements 'Cara' or 'Cruz'),
heads count + tails count equals the total, and the total is the sequence
length. -/
theorem claim_C4 (trials : List String)
    (h : ∀ x ∈ trials, x = "Cara" ∨ x = "Cruz") :
    (calculate_statistics trials).caras + (calculate_statistics trials).cruces
      = (calculate_statistics trials).total
    ∧ (calculate_statistics trials).total = trials.length := by
  refine ⟨?_, rfl⟩
  show trials.count "Cara" + trials.count "Cruz" = trials.length
  exact count_cara_cruz_of_valid h

/-- Witness for C4 on the sequence [Cara, Cruz, Cara]. -/
theorem claim_C4_witness :
    (∀ x ∈ (["Cara", "Cruz", "Cara"] : List String), x = "Cara" ∨ x = "Cruz")
    ∧ ((calculate_statistics ["Cara", "Cruz", "Cara"]).caras
          + (calculate_statistics ["Cara", "Cruz", "Cara"]).cruces
        = (calculate_statistics ["Cara", "Cruz", "Cara"]).total
      ∧ (calculate_statistics ["Cara", "Cruz", "Cara"]).total
        = (["Cara", "Cruz", "Cara"] : List String).length) :=
  ⟨by simp, claim_C4 ["Cara", "Cruz", "Cara"] (by simp)⟩

/-- C5: for every sequence of trial outcomes both percentages lie in [0, 100]
and sum to exactly 100 when the total is positive (exact rationals here, so
"up to floating rounding" is exact equality); the empty sequence is not an
error and yields total 0 with both percentages 0. -/
theorem claim_C5 (trials : List String)
    (h : ∀ x ∈ trials, x = "Cara" ∨ x = "Cruz") :
    (0 ≤ (calculate_statistics trials).porcentaje_caras
      ∧ (calculate_statistics trials).porcentaje_caras ≤ 100)
    ∧ (0 ≤ (calculate_statistics trials).porcentaje_cruces
      ∧ (calculate_statistics trials).porcentaje_cruces ≤ 100)
    ∧ (0 < (calculate_statistics trials).total →
        (calculate_statistics trials).porcentaje_caras
          + (calculate_statistics trials).porcentaje_cruces = 100)
    ∧ (trials = [] →
        (calculate_statistics trials).total = 0
        ∧ (calculate_statistics trials).porcentaje_caras = 0
        ∧ (calculate_statistics trials).porcentaje_cruces = 0) := by
  have hbound : ∀ c : ℕ, c ≤ trials.length →
      0 ≤ (if 0 < trials.length then (c : ℚ) / trials.length * 100 else 0)
      ∧ (if 0 < trials.length then (c : ℚ) / trials.length * 100 else 0) ≤ 100 := by
    intro c hc
    split_ifs with hlen
    · have ht : (0 : ℚ) < trials.length := by exact_mod_cast hlen
      constructor
      · positivity
      · rw [div_mul_eq_mul_div, div_le_iff ht]
        have hcq : (c : ℚ) ≤ trials.length := by exact_mod_cast hc
        linarith
    · norm_num
  refine ⟨hbound _ (List.count_le_length _ _), hbound _ (List.count_le_length _ _),
    ?_, ?_⟩
  · intro hpos
    have hlen : 0 < trials.length := hpos
    have ht : (0 : ℚ) < trials.length := by exact_mod_cast hlen
    show (if 0 < trials.length then (trials.count "Cara" : ℚ) / trials.length * 100 else 0)
        + (if 0 < trials.length then (trials.count "Cruz" : ℚ) / trials.length * 100 else 0)
        = 100
    rw [if_pos hlen, if_pos hlen]
    have hsum := count_cara_cruz_of_valid h
    have hq : (trials.count "Cara" : ℚ) + trials.count "Cruz" = trials.length := by
      exact_mod_cast hsum
    field_simp
    linarith
  · intro he
    subst he
    exact ⟨rfl, by norm_num [calculate_statistics], by norm_num [calculate_statistics]⟩

/-- Witness for C5 on the sequence [Cara, Cruz, Cara]. -/
theorem claim_C5_witness :
    (∀ x ∈ (["Cara", "Cruz", "Cara"] : List String), x = "Cara" ∨ x = "Cruz")
    ∧ ((0 ≤ (calculate_statistics ["Cara", "Cruz", "Cara"]).porcentaje_caras
        ∧ (calculate_statistics ["Cara", "Cruz", "Cara"]).porcentaje_caras ≤ 100)
      ∧ (0 ≤ (calculate_statistics ["Cara", "Cruz", "Cara"]).porcentaje_cruces
        ∧ (calculate_statistics ["Cara", "Cruz", "Cara"]).porcentaje_cruces ≤ 100)
      ∧ (0 < (calculate_statistics ["Cara", "Cruz", "Cara"]).total →
          (calculate_statistics ["Cara", "Cruz", "Cara"]).porcentaje_caras
            + (calculate_statistics ["Cara", "Cruz", "Cara"]).porcentaje_cruces = 100)
      ∧ ((["Cara", "Cruz", "Cara"] : List String) = [] →
          (calculate_statistics ["Cara", "Cruz", "Cara"]).total = 0
          ∧ (calculate_statistics ["Cara", "Cruz", "Cara"]).porcentaje_caras = 0
          ∧ (calculate_statistics ["Cara", "Cruz", "Cara"]).porcentaje_cruces = 0)) :=
  ⟨by simp, claim_C5 ["Cara", "Cruz", "Cara"] (by simp)⟩

/-- C10: `calculate_statistics` counts only elements exactly equal to the two
labels; with at least one foreign element the counted outcomes fall strictly
short of the total and the percentages sum to strictly less than 100. -/
theorem claim_C10 (trials : List String) (x : String) (hx : x ∈ trials)
    (hx1 : x ≠ "Cara") (hx2 : x ≠ "Cruz") :
    (calculate_statistics trials).caras + (calculate_statistics trials).cruces
      < (calculate_statistics trials).total
    ∧ (calculate_statistics trials).porcentaje_caras
      + (calculate_statistics trials).porcentaje_cruces < 100 := by
  have hadd := count_cara_cruz_add trials
  have hjunk : 0 < trials.countP (fun s => !(s == "Cara") && !(s == "Cruz")) := by
    rw [List.countP_pos]
    exact ⟨x, hx, by simp [hx1, hx2]⟩
  have hlt : trials.count "Cara" + trials.count "Cruz" < trials.length := by omega
  constructor
  · exact hlt
  · have hlen : 0 < trials.length := List.length_pos.mpr (List.ne_nil_of_mem hx)
    have ht : (0 : ℚ) < trials.length := by exact_mod_cast hlen
    show (if 0 < trials.length then (trials.count "Cara" : ℚ) / trials.length * 100 else 0)
        + (if 0 < trials.length then (trials.count "Cruz" : ℚ) / trials.length * 100 else 0)
        < 100
    rw [if_pos hlen, if_pos hlen]
    have hq : (trials.count "Cara" : ℚ) + trials.count "Cruz" < trials.length := by
      exact_mod_cast hlt
    rw [div_mul_eq_mul_div, div_mul_eq_mul_div, div_add_div_same, div_lt_iff ht]
    linarith

/-- Witness for C10 on the sequence [Cara, X] with the foreign element X. -/
theorem claim_C10_witness :
    (("X" : String) ∈ (["Cara", "X"] : List String)
      ∧ ("X" : String) ≠ "Cara" ∧ ("X" : String) ≠ "Cruz")
    ∧ ((calculate_statistics ["Cara", "X"]).caras
          + (calculate_statistics ["Cara", "X"]).cruces
        < (calculate_statistics ["Cara", "X"]).total
      ∧ (calculate_statistics ["Cara", "X"]).porcentaje_caras
          + (calculate_statistics ["Cara", "X"]).porcentaje_cruces < 100) :=
  ⟨⟨by simp, by simp, by simp⟩,
    claim_C10 ["Cara", "X"] "X" (by simp) (by simp) (by simp)⟩

/-- C6 counterexample: the claim asserts failure for every count ≤ 0, but at
count = 0 (probability 1/2) the generator does not fail — `np.random.choice`
with `size = 0` succeeds — and an (empty) outcome list is returned. -/
theorem claim_C6_counterexample :
    flip_coin 0 (1/2) (fun _ => 0) = Except.ok [] := by
  norm_num [flip_coin]

/-- C6 (amended): for every count < 0 and every headsProbability outside
[0,1] the generator fails with the corresponding InvalidParameter condition
and produces no sequence, not even an empty one; count = 0 with a valid
probability instead succeeds with the empty sequence. -/
theorem claim_C6_amended (n_flips : ℤ) (probability : ℚ) (rand : ℕ → ℚ)
    (h : n_flips < 0 ∨ probability < 0 ∨ 1 < probability) :
    ((∃ e, flip_coin n_flips probability rand = Except.error e)
      ∧ ∀ l, flip_coin n_flips probability rand ≠ Except.ok l)
    ∧ (0 ≤ probability → probability ≤ 1 →
        flip_coin 0 probability rand = Except.ok []) := by
  constructor
  · by_cases hp : probability < 0 ∨ 1 - probability < 0
    · have he : flip_coin n_flips probability rand
          = Except.error FlipError.probabilitiesNotNonNegative := by
        unfold flip_coin
        rw [if_pos hp]
      rw [he]
      exact ⟨⟨_, rfl⟩, fun l hl => Except.noConfusion hl⟩
    · have hneg : n_flips < 0 := by
        rcases h with h | h | h
        · exact h
        · exact absurd (Or.inl h) hp
        · exact absurd (Or.inr (by linarith)) hp
      have he : flip_coin n_flips probability rand
          = Except.error FlipError.negativeDimensions := by
        unfold flip_coin
        rw [if_neg hp, if_pos hneg]
      rw [he]
      exact ⟨⟨_, rfl⟩, fun l hl => Except.noConfusion hl⟩
  · intro hp0 hp1
    have hp : ¬ (probability < 0 ∨ 1 - probability < 0) := by
      push_neg
      constructor <;> linarith
    unfold flip_coin
    rw [if_neg hp, if_neg (by omega : ¬ (0 : ℤ) < 0)]
    simp

/-- Witness for the amended C6 at count = -1, probability = 1/2. -/
theorem claim_C6_amended_witness :
    ((-1 : ℤ) < 0 ∨ (1/2 : ℚ) < 0 ∨ (1 : ℚ) < 1/2)
    ∧ (((∃ e, flip_coin (-1) (1/2) (fun _ => 0) = Except.error e)
        ∧ ∀ l, flip_coin (-1) (1/2) (fun _ => 0) ≠ Except.ok l)
      ∧ ((0:ℚ) ≤ 1/2 → (1/2:ℚ) ≤ 1 →
          flip_coin 0 (1/2) (fun _ => 0) = Except.ok [])) :=
  ⟨Or.inl (by norm_num),
    claim_C6_amended (-1) (1/2) (fun _ => 0) (Or.inl (by norm_num))⟩

/-- C8: for every valid count N (1 ≤ N ≤ 1000) and probability p in [0,1] the
generator returns an ordered sequence of exactly N outcomes, each one of the
two labels 'Cara' or 'Cruz'. -/
theorem claim_C8 (n_flips : ℤ) (probability : ℚ) (rand : ℕ → ℚ)
    (hn1 : 1 ≤ n_flips) (hn2 : n_flips ≤ 1000)
    (hp0 : 0 ≤ probability) (hp1 : probability ≤ 1) :
    ∃ l : List String, flip_coin n_flips probability rand = Except.ok l
      ∧ (l.length : ℤ) = n_flips
      ∧ ∀ x ∈ l, x = "Cara" ∨ x = "Cruz" := by
  have hp : ¬ (probability < 0 ∨ 1 - probability < 0) := by
    push_neg
    constructor <;> linarith
  have hneg : ¬ n_flips < 0 := by omega
  have he : flip_coin n_flips probability rand
      = Except.ok ((List.range n_flips.toNat).map
          (fun i => if rand i < probability then "Cara" else "Cruz")) := by
    unfold flip_coin
    rw [if_neg hp, if_neg hneg]
  refine ⟨_, he, ?_, ?_⟩
  · rw [List.length_map, List.length_range]
    omega
  · intro x hx
    rw [List.mem_map] at hx
    obtain ⟨i, _, hxi⟩ := hx
    by_cases hc : rand i < probability
    · left
      rw [← hxi, if_pos hc]
    · right
      rw [← hxi, if_neg hc]

/-- Witness for C8 at N = 3, p = 1/2 with a constant-zero random stream. -/
theorem claim_C8_witness :
    ((1 : ℤ) ≤ 3 ∧ (3 : ℤ) ≤ 1000 ∧ (0 : ℚ) ≤ 1/2 ∧ (1/2 : ℚ) ≤ 1)
    ∧ ∃ l : List String, flip_coin 3 (1/2) (fun _ => 0) = Except.ok l
        ∧ (l.length : ℤ) = 3
        ∧ ∀ x ∈ l, x = "Cara" ∨ x = "Cruz" :=
  ⟨⟨by norm_num, by norm_num, by norm_num, by norm_num⟩,
    claim_C8 3 (1/2) (fun _ => 0)
      (by norm_num) (by norm_num) (by norm_num) (by norm_num)⟩

/-- C2 counterexample: at totalCount = 10, expectedProbability = 4/5 the test
returns the interval [5, 10], yet the interval [6, 10] also carries at least
95% of the binomial mass while spanning strictly fewer integer outcome
counts, so the returned interval is not the smallest-width interval with
≥95% coverage. -/
theorem claim_C2_counterexample :
    (∃ r, perform_binomial_test 8 10 (4/5) = Except.ok r
        ∧ r.confidence_interval = (5, 10))
    ∧ (19 : ℚ)/20 ≤ intervalMass 10 (4/5) 6 10
    ∧ (Finset.Icc 6 10).card < (Finset.Icc 5 10).card := by
  refine ⟨⟨_, rfl, ?_⟩, ?_, ?_⟩
  · show binom_interval 0.95 10 (4/5) = (5, 10)
    norm_num [binom_interval, binom_ppf, scanLeast, binom_cdf, binom_pmf,
      Nat.choose]
  · have h := intervalMass_eq (n := 10) (p := 4/5) (show (6 : ℕ) ≤ 10 by omega)
    rw [h, show (6 : ℕ) = 5 + 1 from rfl, ← binom_cdf_eq_sum]
    norm_num [binom_cdf, binom_pmf, Nat.choose]
  · simp [Nat.card_Icc]

/-- C2 (amended): the confidence interval returned by the binomial test is
scipy's central equal-tailed quantile interval
(ppf(0.025, n, p), ppf(0.975, n, p)); its bounds are ordered and it always
places at least 95% of the binomial mass within [ciLow, ciHigh] inclusive,
but it is not in general the smallest-width such interval. -/
theorem claim_C2_amended (headsCount totalCount : ℕ) (p : ℚ)
    (hn : 1 ≤ totalCount) (hp0 : 0 ≤ p) (hp1 : p ≤ 1) :
    ∃ r, perform_binomial_test headsCount totalCount p = Except.ok r
      ∧ r.confidence_interval = binom_interval 0.95 totalCount p
      ∧ r.confidence_interval.1 ≤ r.confidence_interval.2
      ∧ (19 : ℚ)/20 ≤ intervalMass totalCount p
          r.confidence_interval.1 r.confidence_interval.2 := by
  have h0 : ¬ (totalCount = 0) := by omega
  have hc0 : (0 : ℚ) ≤ 0.95 := by norm_num
  have hc1 : (0.95 : ℚ) ≤ 1 := by norm_num
  have hord := binom_interval_fst_le_snd hc0 hc1 totalCount p
  have hcov := binom_interval_coverage hc0 hc1 totalCount p
  refine ⟨{ p_value := binomtest_pvalue headsCount totalCount p
          , is_fair :=
              decide ((0.05 : ℚ) < binomtest_pvalue headsCount totalCount p)
          , confidence_interval := binom_interval 0.95 totalCount p },
    ?_, rfl, hord, ?_⟩
  · unfold perform_binomial_test
    rw [if_neg h0]
  · calc (19 : ℚ)/20 = 0.95 := by norm_num
      _ ≤ _ := hcov

/-- Witness for the amended C2 at heads = 0, total = 1, p = 1/2. -/
theorem claim_C2_amended_witness :
    ((1 : ℕ) ≤ 1 ∧ (0 : ℚ) ≤ 1/2 ∧ (1/2 : ℚ) ≤ 1)
    ∧ ∃ r, perform_binomial_test 0 1 (1/2) = Except.ok r
        ∧ r.confidence_interval = binom_interval 0.95 1 (1/2)
        ∧ r.confidence_interval.1 ≤ r.confidence_interval.2
        ∧ (19 : ℚ)/20 ≤ intervalMass 1 (1/2)
            r.confidence_interval.1 r.confidence_interval.2 :=
  ⟨⟨by norm_num, by norm_num, by norm_num⟩,
    claim_C2_amended 0 1 (1/2) (by norm_num) (by norm_num) (by norm_num)⟩

/-- C9 counterexample: at totalCount = 1, expectedProbability = 99/100 the
test returns the confidence interval [1, 1], whose lower bound 1 exceeds the
expected mean totalCount·p = 0.99 — the interval does not contain the mean. -/
theorem claim_C9_counterexample :
    (∃ r, perform_binomial_test 1 1 (99/100) = Except.ok r
        ∧ r.confidence_interval = (1, 1))
    ∧ ¬ (((1 : ℕ) : ℚ) ≤ 1 * (99/100)) := by
  refine ⟨⟨_, rfl, ?_⟩, by norm_num⟩
  show binom_interval 0.95 1 (99/100) = (1, 1)
  norm_num [binom_interval, binom_ppf, scanLeast, binom_cdf, binom_pmf,
    Nat.choose]

/-- C9 (amended): for fixed p in [0,1] both confidence-interval bounds are
monotone non-decreasing in totalCount; the interval contains the expected
mean totalCount·p for the fair probability p = 1/2 (the value the
application always tests with), though not for every p. -/
theorem claim_C9_amended (p : ℚ) (hp0 : 0 ≤ p) (hp1 : p ≤ 1)
    (n m : ℕ) (hnm : n ≤ m) :
    ((binom_interval 0.95 n p).1 ≤ (binom_interval 0.95 m p).1
      ∧ (binom_interval 0.95 n p).2 ≤ (binom_interval 0.95 m p).2)
    ∧ (((binom_interval 0.95 n (1/2)).1 : ℚ) ≤ (n : ℚ) * (1/2)
      ∧ (n : ℚ) * (1/2) ≤ ((binom_interval 0.95 n (1/2)).2 : ℚ)) :=
  ⟨⟨binom_ppf_mono_n hp0 hp1 ((1 - 0.95)/2) hnm,
    binom_ppf_mono_n hp0 hp1 ((1 + 0.95)/2) hnm⟩,
    binom_interval_lo_le_half n, binom_interval_hi_ge_half n⟩

/-- Witness for the amended C9 at p = 1/2, totals 2 ≤ 3. -/
theorem claim_C9_amended_witness :
    ((0 : ℚ) ≤ 1/2 ∧ (1/2 : ℚ) ≤ 1 ∧ (2 : ℕ) ≤ 3)
    ∧ (((binom_interval 0.95 2 (1/2)).1 ≤ (binom_interval 0.95 3 (1/2)).1
        ∧ (binom_interval 0.95 2 (1/2)).2 ≤ (binom_interval 0.95 3 (1/2)).2)
      ∧ (((binom_interval 0.95 2 (1/2)).1 : ℚ) ≤ (2 : ℚ) * (1/2)
        ∧ (2 : ℚ) * (1/2) ≤ ((binom_interval 0.95 2 (1/2)).2 : ℚ))) :=
  ⟨⟨by norm_num, by norm_num, by norm_num⟩,
    by
      have h := claim_C9_amended (1/2) (by norm_num) (by norm_num) 2 3
        (by norm_num)
      convert h using 3⟩
